import Mathlib

/-
Verification of the multi-identity email dispatch engine in
TurboNIW_Email_Sender/send_emails_gmail_api.py (class GmailAPISender).

Python dicts are modelled as association lists with first-occurrence lookup
and in-place update (setF), which matches insertion-ordered dict semantics.
Python string operations are modelled on List Char: s.lower() is pyLower,
and the substring test (needle in hay) is strContains.
-/

/-- ASCII lower-casing of one character, as Python str.lower does on ASCII. -/
def lowerChar (c : Char) : Char := Char.toLower c

/-- Python s.lower() on the code points of a string. -/
def pyLower (s : String) : String := String.mk (s.data.map lowerChar)

/-- Does the pattern p stand at the head of l (list version of startswith)? -/
def leadsWith : List Char → List Char → Bool
  | [], _ => true
  | _ :: _, [] => false
  | a :: as, b :: bs => a == b && leadsWith as bs

/-- Does the pattern p occur contiguously somewhere inside l? -/
def listOccurs (p : List Char) : List Char → Bool
  | [] => leadsWith p []
  | c :: t => leadsWith p (c :: t) || listOccurs p t

/-- Python membership test on strings: needle in hay. -/
def strContains (hay needle : String) : Bool := listOccurs needle.data hay.data

/-- Lookup of the first entry with the given key, as a Python dict read d[k]. -/
def lookupF {κ α : Type} [DecidableEq κ] : List (κ × α) → κ → Option α
  | [], _ => none
  | (k, v) :: rest, key => if k = key then some v else lookupF rest key

/-- Python dict write d[k] = v: replace the first entry with the key, or append. -/
def setF {κ α : Type} [DecidableEq κ] : List (κ × α) → κ → α → List (κ × α)
  | [], key, v => [(key, v)]
  | (k, w) :: rest, key, v =>
      if k = key then (key, v) :: rest else (k, w) :: setF rest key v

/-- Does the dict have the key (Python: k in d)? -/
def hasKey {κ α : Type} [DecidableEq κ] (l : List (κ × α)) (k : κ) : Bool :=
  (lookupF l k).isSome

/-- Number of occurrences of a string in a list of strings. -/
def countOcc (a : String) (l : List String) : Nat :=
  l.countP (fun x => x == a)

/-- One entry of history["recipients"], as written by record_sent_email
(lines 650-667 of send_emails_gmail_api.py). -/
structure RecipientRecord where
  email : String
  name : String
  paper_title : String
  first_sent : String
  last_sent : String
  send_count : Nat
  send_dates : List String
  accounts_used : List String
  last_timestamp : String
deriving DecidableEq

/-- The persisted history file: recipients keyed by lower-cased address and
daily_stats keyed by date, each date mapping account id (and "total") to a count. -/
structure History where
  recipients : List (String × RecipientRecord)
  daily_stats : List (String × List (String × Nat))
deriving DecidableEq

/-- The default history returned by load_history (line 83). -/
def emptyHistory : History := { recipients := [], daily_stats := [] }

/-- load_history (lines 73-83): if the file exists, try to read and parse it,
returning the parse on success; on any exception, and when the file does not
exist, return the empty history. The file read and JSON parse are modelled
together as an Except value. -/
def load_history (file_exists : Bool) (parsed : Except Unit History) : History :=
  if file_exists then
    match parsed with
    | Except.ok h => h
    | Except.error _ => emptyHistory
  else emptyHistory

/-- is_already_sent (lines 625-635): whitelisted test addresses always come back
false; otherwise membership of the lower-cased address among the history keys. -/
def is_already_sent (test_whitelist : List String) (h : History) (email : String) : Bool :=
  let email_lower := pyLower email
  if (test_whitelist.map pyLower).contains email_lower then false
  else hasKey h.recipients email_lower

/-- Sum of the per-account counts, skipping the derived "total" key
(lines 675-678). -/
def totalOf (ds : List (String × Nat)) : Nat :=
  ((ds.filter (fun kv => ¬(kv.1 = "total"))).map Prod.snd).sum

/-- record_sent_email (lines 641-678): upsert the recipient record under the
lower-cased address, bump the per-account counter for today, recompute the total for today.
Mutates only the in-memory history; no file write happens here. -/
def record_sent_email (today timestamp email name paper_title account_id account_email : String)
    (h : History) : History :=
  let email_lower := pyLower email
  let recipients :=
    match lookupF h.recipients email_lower with
    | some r =>
        setF h.recipients email_lower
          { r with last_sent := today, send_count := r.send_count + 1,
                   send_dates := r.send_dates ++ [today],
                   accounts_used := r.accounts_used ++ [account_email] }
    | none =>
        setF h.recipients email_lower
          { email := email, name := name, paper_title := paper_title,
            first_sent := today, last_sent := today, send_count := 1,
            send_dates := [today], accounts_used := [account_email],
            last_timestamp := timestamp }
  let ds0 := (lookupF h.daily_stats today).getD []
  let ds1 := setF ds0 account_id ((lookupF ds0 account_id).getD 0 + 1)
  let ds2 := setF ds1 "total" (totalOf ds1)
  { recipients := recipients, daily_stats := setF h.daily_stats today ds2 }

/-- The in-memory history (self.history) next to its on-disk copy
(the sent_history file). -/
structure Store where
  mem : History
  disk : History
deriving DecidableEq

/-- Effect of one record_sent_email call on the memory/disk pair: only the
in-memory history changes (the method performs no file write). -/
def record_sent_email_step (today timestamp email name paper_title account_id account_email : String)
    (s : Store) : Store :=
  { mem := record_sent_email today timestamp email name paper_title account_id account_email s.mem,
    disk := s.disk }

/-- save_history (lines 85-89): dump the in-memory history to the file. -/
def save_history (s : Store) : Store := { mem := s.mem, disk := s.mem }

theorem lookupF_setF_self {κ α : Type} [DecidableEq κ] (l : List (κ × α)) (k : κ) (v : α) :
    lookupF (setF l k v) k = some v := by
  induction l with
  | nil => simp [setF, lookupF]
  | cons hd tl ih =>
      obtain ⟨k0, v0⟩ := hd
      by_cases hk : k0 = k
      · simp [setF, hk, lookupF]
      · simp [setF, hk, lookupF, ih]

theorem lookupF_setF_ne {κ α : Type} [DecidableEq κ] (l : List (κ × α)) (k k' : κ) (v : α)
    (h : k' ≠ k) : lookupF (setF l k v) k' = lookupF l k' := by
  have h2 : ¬k = k' := fun hh => h hh.symm
  induction l with
  | nil => simp [setF, lookupF, h2]
  | cons hd tl ih =>
      obtain ⟨k0, v0⟩ := hd
      by_cases hk : k0 = k
      · subst hk
        simp [setF, lookupF, h2]
      · simp [setF, hk, lookupF, ih]

/-- One entry of config["accounts"]. Optional fields mirror dict.get with its
default. disabled_until is an ISO timestamp, modelled as an integer time;
"now" is likewise an integer. -/
structure Account where
  id : String
  enabled : Option Bool
  auth_method : Option String
  daily_limit : Option Nat
  disabled_until : Option Int
deriving DecidableEq

/-- get_available_account (lines 585-610): walk config["accounts"] in list
order; skip a disabled (enabled false) account, a non gmail_api account, and
an account in failed_accounts; return the first whose count sent today is
below its daily limit (default 2000), together with that count. The stats
argument is history["daily_stats"][today]. Note the code never reads
disabled_until here. -/
def get_available_account (failed_accounts : List String) (stats : List (String × Nat)) :
    List Account → Option (Account × Nat)
  | [] => none
  | a :: rest =>
      if ¬a.enabled.getD true then get_available_account failed_accounts stats rest
      else if ¬(a.auth_method = some "gmail_api") then get_available_account failed_accounts stats rest
      else if a.id ∈ failed_accounts then get_available_account failed_accounts stats rest
      else
        let sent_today := (lookupF stats a.id).getD 0
        let daily_limit := a.daily_limit.getD 2000
        if sent_today < daily_limit then some (a, sent_today)
        else get_available_account failed_accounts stats rest

/-- The scan claimed by the spec sentence for NextAvailable: skip accounts that
are disabled, whose disabledUntil lies in the future, or whose count sent today
has reached the daily limit; return the first eligible account with its count.
Written from the claim text, to be compared with get_available_account. -/
def get_available_account_claim (now : Int) (failed_accounts : List String)
    (stats : List (String × Nat)) : List Account → Option (Account × Nat)
  | [] => none
  | a :: rest =>
      if ¬a.enabled.getD true then get_available_account_claim now failed_accounts stats rest
      else if (match a.disabled_until with | some t => decide (now < t) | none => false) then
        get_available_account_claim now failed_accounts stats rest
      else if a.id ∈ failed_accounts then get_available_account_claim now failed_accounts stats rest
      else
        let sent_today := (lookupF stats a.id).getD 0
        if sent_today < a.daily_limit.getD 2000 then some (a, sent_today)
        else get_available_account_claim now failed_accounts stats rest

/-- The eligibility test get_available_account applies to one account. -/
def account_eligible (failed_accounts : List String) (stats : List (String × Nat))
    (a : Account) : Bool :=
  a.enabled.getD true && (a.auth_method == some "gmail_api")
    && !(failed_accounts.contains a.id)
    && decide ((lookupF stats a.id).getD 0 < a.daily_limit.getD 2000)

/-- disable_account_for_24h (lines 91-119): stamp disabled_until 24 hours from
now and also set enabled to false, persisting the account entry. -/
def disable_account_for_24h (now : Int) (a : Account) : Account :=
  { a with disabled_until := some (now + 24 * 3600), enabled := some false }

/-- Result of is_account_disabled: the boolean, the reason text, and the
account as left after the call (the method mutates the account dict when it
clears an elapsed disable). -/
structure DisabledResult where
  disabled : Bool
  reason : Option String
  account : Account
deriving DecidableEq

/-- is_account_disabled (lines 121-168): a not-enabled account is reported as
manually disabled before disabled_until is ever looked at; only an enabled
account with an elapsed disabled_until is re-enabled and has the flag cleared.
Timestamps are integers, so the invalid-timestamp branch has no counterpart. -/
def is_account_disabled (now : Int) (a : Account) : DisabledResult :=
  if ¬a.enabled.getD true then
    { disabled := true, reason := some "Account is manually disabled", account := a }
  else
    match a.disabled_until with
    | some t =>
        if now < t then
          { disabled := true, reason := some "Account disabled due to bounce/block",
            account := a }
        else
          { disabled := false, reason := none,
            account := { a with enabled := some true, disabled_until := none } }
    | none => { disabled := false, reason := none, account := a }

/-- The six rate limit indicator phrases (lines 437-444). -/
def rate_limit_phrases : List String :=
  ["reached a limit for sending mail",
   "limit for sending mail",
   "sending limit",
   "daily sending quota",
   "quota exceeded",
   "you have reached a limit"]

/-- The five blocked or rejected indicator phrases (lines 447-453). -/
def blocked_phrases : List String :=
  ["message blocked",
   "message was blocked",
   "blocked. see technical details",
   "message rejected",
   "delivery status notification (failure)"]

/-- The lower-cased concatenation subject snippet body (line 434). -/
def combined_lower (subject snippet body : String) : String :=
  pyLower (subject ++ " " ++ snippet ++ " " ++ body)

/-- Classification of one inbound message (lines 456-457): evaluate the rate
limit indicators and the blocked indicators, both of them, over the combined
text; there is no third phrase set. -/
def classify_message (subject snippet body : String) : Bool × Bool :=
  let t := combined_lower subject snippet body
  (rate_limit_phrases.any (fun p => strContains t p),
   blocked_phrases.any (fun p => strContains t p))

/-- A match in either set counts as a detected bounce (line 459). -/
def bounce_detected (subject snippet body : String) : Bool :=
  (classify_message subject snippet body).1 || (classify_message subject snippet body).2

/-- The fields read from one fetched inbound message. -/
structure BounceMsg where
  subject : String
  snippet : String
  body : String
deriving DecidableEq

/-- What one check_rate_limit_bounce call reports and changes: the returned
boolean, failed_accounts afterwards, and whether disable_account_for_24h ran. -/
structure CheckOutcome where
  detected : Bool
  failed_accounts : List String
  disabled_account : Bool
deriving DecidableEq

/-- The per-message loop (lines 413-480): a message whose fetch or parse raises
is skipped (the inner except continues); the first message matching either
phrase set disables the account, adds it to failed_accounts and returns true;
otherwise the loop falls through to false. -/
def scan_bounce_msgs (account_id : String) (failed : List String) :
    List (Except Unit BounceMsg) → CheckOutcome
  | [] => { detected := false, failed_accounts := failed, disabled_account := false }
  | Except.error _ :: rest => scan_bounce_msgs account_id failed rest
  | Except.ok m :: rest =>
      if bounce_detected m.subject m.snippet m.body then
        { detected := true, failed_accounts := account_id :: failed, disabled_account := true }
      else scan_bounce_msgs account_id failed rest

/-- check_rate_limit_bounce (lines 361-485). The cadence gate of lines 379-400
is abstracted into should_check; the mailbox listing, like each message fetch,
is an Except: a listing failure is caught and degrades to false (lines 481-485). -/
def check_rate_limit_bounce (check_bounce_emails should_check : Bool) (account_id : String)
    (failed : List String) (listing : Except Unit (List (Except Unit BounceMsg))) :
    CheckOutcome :=
  if ¬check_bounce_emails then
    { detected := false, failed_accounts := failed, disabled_account := false }
  else if ¬should_check then
    { detected := false, failed_accounts := failed, disabled_account := false }
  else
    match listing with
    | Except.error _ =>
        { detected := false, failed_accounts := failed, disabled_account := false }
    | Except.ok msgs => scan_bounce_msgs account_id failed msgs

/-- What the worker does after its periodic bounce check. -/
inductive WorkerBounceAction where
  | continueSending
  | stopAccount
deriving DecidableEq

/-- The bounce check step of account_worker (lines 855-867): authenticate and
check inside a try; a raised exception is swallowed and the worker keeps
sending; only a detected bounce stops the account. -/
def worker_bounce_check (res : Except Unit CheckOutcome) : WorkerBounceAction :=
  match res with
  | Except.error _ => WorkerBounceAction.continueSending
  | Except.ok r =>
      if r.detected then WorkerBounceAction.stopAccount
      else WorkerBounceAction.continueSending

/-- What the worker exception handler decides: whether the held recipient goes
back into the queue, whether the account joins failed_accounts, and whether the
worker thread stops. -/
structure HandlerOutcome where
  requeued : Bool
  account_failed : Bool
  worker_stops : Bool
deriving DecidableEq

/-- The except branch of the worker send loop (lines 925-948): the account is
always marked failed and the thread always breaks; the recipient is put back
only when the lower-cased message mentions none of "rate limit reached",
"credentials", "file" - for those three the task is marked done and the
recipient is dropped. -/
def worker_error_handler (error_msg : String) : HandlerOutcome :=
  let m := pyLower error_msg
  let is_rate_limit := strContains m "rate limit reached"
  if is_rate_limit || strContains m "credentials" || strContains m "file" then
    { requeued := false, account_failed := true, worker_stops := true }
  else
    { requeued := true, account_failed := true, worker_stops := true }

/-- Where a worker stands inside one loop iteration of account_worker for the
recipient it holds: ready (before the locked double check of lines 884-891),
passedCheck (check done under the lock, lock released, send not yet made),
sent (Transport.Send succeeded, record of lines 649-678 not yet taken), done. -/
inductive Phase where
  | ready
  | passedCheck
  | sent
  | done
deriving DecidableEq

/-- One dispatch worker together with the recipient address it holds. -/
structure CWorker where
  addr : String
  phase : Phase
deriving DecidableEq

/-- Shared state of the racing workers: the recipients map of the history
(address to send_count), the log of Transport.Send calls made, and the workers
keyed by thread id. The lock is the atomicity of one step: the locked double
check is one step and the locked record is one step, with the lock released -
and other workers free to run - between them, exactly as in account_worker. -/
structure CSys where
  ledger : List (String × Nat)
  sends : List String
  workers : List (Nat × CWorker)
deriving DecidableEq

/-- The recorded send_count for an address, zero when absent. -/
def ledgerCount (l : List (String × Nat)) (a : String) : Nat :=
  (lookupF l a).getD 0

/-- The send_count upsert of record_sent_email: bump an existing entry, else
create one with count 1. -/
def bumpLedger (l : List (String × Nat)) (a : String) : List (String × Nat) :=
  match lookupF l a with
  | some n => setF l a (n + 1)
  | none => setF l a 1

/-- One atomic step of worker i: the locked double check (skip when the address
is already recorded, else pass), the unlocked Transport.Send, or the locked
record. Sends always succeed here: the claim is about the success path. -/
def stepW (s : CSys) (i : Nat) : CSys :=
  match lookupF s.workers i with
  | none => s
  | some w =>
      match w.phase with
      | Phase.ready =>
          if hasKey s.ledger w.addr then
            { s with workers := setF s.workers i { addr := w.addr, phase := Phase.done } }
          else
            { s with workers := setF s.workers i { addr := w.addr, phase := Phase.passedCheck } }
      | Phase.passedCheck =>
          { s with sends := s.sends ++ [w.addr],
                   workers := setF s.workers i { addr := w.addr, phase := Phase.sent } }
      | Phase.sent =>
          { s with ledger := bumpLedger s.ledger w.addr,
                   workers := setF s.workers i { addr := w.addr, phase := Phase.done } }
      | Phase.done => s

/-- Run the workers under an arbitrary interleaving, given as the list of
worker ids scheduled. -/
def runW (s : CSys) : List Nat → CSys
  | [] => s
  | i :: rest => runW (stepW s i) rest

/-- Count of workers whose held state satisfies p. -/
def countVal (p : CWorker → Bool) : List (Nat × CWorker) → Nat
  | [] => 0
  | kv :: l => countVal p l + (if p kv.2 then 1 else 0)

/-- Workers that hold address a and have sent but not yet recorded. -/
def sentPred (a : String) (w : CWorker) : Bool :=
  decide (w.addr = a ∧ w.phase = Phase.sent)

/-- Workers that hold address a and sit between their passed check and their
record (the window the spec claims is one critical section). -/
def inFlightPred (a : String) (w : CWorker) : Bool :=
  decide (w.addr = a ∧ (w.phase = Phase.passedCheck ∨ w.phase = Phase.sent))

/-- Where the quota loop of account_worker stands: atTop (about to re-read the
account counter under the lock, lines 827-830), sending (the counter was below
the limit; send made and record pending), stopped (line 833 break). -/
inductive QPhase where
  | atTop
  | sending
  | stopped
deriving DecidableEq

/-- One account worker of the quota model: its daily limit and its position. -/
structure QWorker where
  limit : Nat
  qph : QPhase
deriving DecidableEq

/-- Quota state: the per-account counters of the history for today and one worker per
account id, as process_csv starts one account_worker per active account. -/
structure QSys where
  counters : List (String × Nat)
  workers : List (String × QWorker)
deriving DecidableEq

/-- One atomic step of the worker of account aid: at the loop top it re-reads
its own counter and stops when the counter has reached the daily limit
(lines 827-837), else proceeds to send; a send completes by the locked
record_sent_email increment of exactly one (lines 672-673). A worker only ever
touches the counter of its own account id. -/
def stepQ (s : QSys) (aid : String) : QSys :=
  match lookupF s.workers aid with
  | none => s
  | some w =>
      match w.qph with
      | QPhase.atTop =>
          if w.limit ≤ (lookupF s.counters aid).getD 0 then
            { s with workers := setF s.workers aid { limit := w.limit, qph := QPhase.stopped } }
          else
            { s with workers := setF s.workers aid { limit := w.limit, qph := QPhase.sending } }
      | QPhase.sending =>
          { s with counters := bumpLedger s.counters aid,
                   workers := setF s.workers aid { limit := w.limit, qph := QPhase.atTop } }
      | QPhase.stopped => s

/-- Run the account workers under an arbitrary interleaving of account ids. -/
def runQ (s : QSys) : List String → QSys
  | [] => s
  | aid :: rest => runQ (stepQ s aid) rest

/-- The needle occurs contiguously inside the hay string. -/
def occursWithin (needle hay : String) : Prop :=
  ∃ s u : List Char, hay.data = s ++ needle.data ++ u

/-- A sample recipient record for concrete checks. -/
def sampleRecord : RecipientRecord :=
  { email := "a@b.com", name := "Ann", paper_title := "P",
    first_sent := "2026-10-01", last_sent := "2026-10-01", send_count := 1,
    send_dates := ["2026-10-01"], accounts_used := ["x@g.com"],
    last_timestamp := "T0" }

/-- A sample history holding one recipient. -/
def sampleHistory : History :=
  { recipients := [("a@b.com", sampleRecord)], daily_stats := [] }

/-- A store whose memory and file both hold the empty history. -/
def freshStore : Store := { mem := emptyHistory, disk := emptyHistory }

/-- An enabled gmail_api account whose disabled_until lies at time 3600. -/
def acctFuture : Account :=
  { id := "acct1", enabled := some true, auth_method := some "gmail_api",
    daily_limit := some 10, disabled_until := some 3600 }

/-- A plain enabled gmail_api account. -/
def acctPlain : Account :=
  { id := "acct2", enabled := some true, auth_method := some "gmail_api",
    daily_limit := some 10, disabled_until := none }

/-- Two workers racing on one duplicated recipient address. -/
def raceSys : CSys :=
  { ledger := [], sends := [],
    workers := [(0, { addr := "a@x.com", phase := Phase.ready }),
                (1, { addr := "a@x.com", phase := Phase.ready })] }

/-- Two workers holding distinct recipient addresses. -/
def pairWorkers : List (Nat × CWorker) :=
  [(0, { addr := "a@x.com", phase := Phase.ready }),
   (1, { addr := "b@y.com", phase := Phase.ready })]

/-- The quota invariant of the quota model: every account counter stays at or
below the daily limit of its worker, and a worker that has passed its
top-of-loop check still has room for the send it is about to record. -/
def QInv (s : QSys) : Prop :=
  ∀ aid : String,
    match lookupF s.workers aid with
    | some w => (lookupF s.counters aid).getD 0 ≤ w.limit
        ∧ (w.qph = QPhase.sending → (lookupF s.counters aid).getD 0 < w.limit)
    | none => True

/-- The accounting invariant of the race model under distinct recipient
addresses: every transport send is accounted either by the ledger or by a
worker that has sent and not yet recorded, and per address the ledger entry
plus the workers inside the check-to-record window never exceed one. -/
def CInv (s : CSys) : Prop :=
  (s.workers.map (fun kv => kv.2.addr)).Nodup ∧
  ∀ a : String,
    countOcc a s.sends = ledgerCount s.ledger a + countVal (sentPred a) s.workers
    ∧ ledgerCount s.ledger a + countVal (inFlightPred a) s.workers ≤ 1

/-- One account worker with daily limit 2 and an empty counter table. -/
def quotaSys : QSys :=
  { counters := [], workers := [("a1", { limit := 2, qph := QPhase.atTop })] }

theorem leadsWith_iff (p : List Char) : ∀ l : List Char,
    (leadsWith p l = true ↔ ∃ u, l = p ++ u) := by
  induction p with
  | nil => intro l; simp [leadsWith]
  | cons a as ih =>
      intro l
      cases l with
      | nil => simp [leadsWith]
      | cons b bs =>
          simp only [leadsWith, Bool.and_eq_true, beq_iff_eq, ih, List.cons_append,
            List.cons.injEq]
          constructor
          · rintro ⟨hab, u, hu⟩
            exact ⟨u, hab.symm, hu⟩
          · rintro ⟨u, hab, hu⟩
            exact ⟨hab.symm, u, hu⟩

theorem listOccurs_iff (p : List Char) : ∀ l : List Char,
    (listOccurs p l = true ↔ ∃ s u, l = s ++ p ++ u) := by
  intro l
  induction l with
  | nil =>
      simp only [listOccurs, leadsWith_iff]
      constructor
      · rintro ⟨u, hu⟩
        exact ⟨[], u, by simpa using hu⟩
      · rintro ⟨s, u, hu⟩
        have h : s ++ p ++ u = [] := hu.symm
        rcases List.append_eq_nil.mp h with ⟨h1, h2⟩
        rcases List.append_eq_nil.mp h1 with ⟨h3, h4⟩
        exact ⟨[], by simp [h4]⟩
  | cons c t ih =>
      simp only [listOccurs, Bool.or_eq_true, leadsWith_iff, ih]
      constructor
      · rintro (⟨u, hu⟩ | ⟨s, u, hu⟩)
        · exact ⟨[], u, by simpa using hu⟩
        · exact ⟨c :: s, u, by simp [hu]⟩
      · rintro ⟨s, u, hu⟩
        cases s with
        | nil => exact Or.inl ⟨u, by simpa using hu⟩
        | cons x s' =>
            right
            refine ⟨s', u, ?_⟩
            have := hu
            simp only [List.cons_append, List.cons.injEq] at this
            exact this.2

theorem strContains_iff (hay needle : String) :
    strContains hay needle = true ↔ occursWithin needle hay :=
  listOccurs_iff needle.data hay.data

/-- C10: when the persisted history file is missing, or reading and parsing it
fails for any reason, load_history yields the empty history with no recipients
and no daily stats, so the run proceeds as if no email had ever been sent. -/
theorem load_history_default (file_exists : Bool) (parsed : Except Unit History)
    (h : file_exists = false ∨ parsed = Except.error ()) :
    load_history file_exists parsed = emptyHistory := by
  rcases h with h | h
  · simp [load_history, h]
  · cases file_exists <;> simp [load_history, h]

/-- C10 witness: a concrete missing file and a concrete corrupt file both load
as the empty history. -/
theorem load_history_default_witness :
    load_history false (Except.ok sampleHistory) = emptyHistory ∧
    load_history true (Except.error ()) = emptyHistory :=
  ⟨load_history_default false (Except.ok sampleHistory) (Or.inl rfl),
   load_history_default true (Except.error ()) (Or.inr rfl)⟩

/-- C3: an address whose lower-cased form appears among the lower-cased test
whitelist entries is never reported as already sent, whatever the history
holds; any other address is reported as already sent exactly when its
lower-cased form is a key of the recipients map. -/
theorem is_already_sent_spec (test_whitelist : List String) (h : History) (email : String) :
    ((pyLower email ∈ test_whitelist.map pyLower) → is_already_sent test_whitelist h email = false)
    ∧ ((pyLower email ∉ test_whitelist.map pyLower) →
        (is_already_sent test_whitelist h email = true ↔
          (lookupF h.recipients (pyLower email)).isSome = true)) := by
  constructor
  · intro hmem
    have hc : (test_whitelist.map pyLower).contains (pyLower email) = true :=
      List.elem_eq_true_of_mem hmem
    simp only [is_already_sent, hc]
    simp
  · intro hmem
    have hc : (test_whitelist.map pyLower).contains (pyLower email) = false := by
      cases hcc : (test_whitelist.map pyLower).contains (pyLower email) with
      | false => rfl
      | true => exact absurd (List.mem_of_elem_eq_true hcc) hmem
    simp only [is_already_sent, hc]
    simp [hasKey]

/-- C3 witness: a differently-cased whitelisted address is sendable even though
it sits in the history, and a non-whitelisted address is reported from the
history keys. -/
theorem is_already_sent_spec_witness :
    is_already_sent ["Test@Example.com"] sampleHistory "TEST@example.COM" = false ∧
    (is_already_sent [] sampleHistory "A@B.com" = true ↔
      (lookupF sampleHistory.recipients "a@b.com").isSome = true) := by
  constructor
  · exact (is_already_sent_spec ["Test@Example.com"] sampleHistory "TEST@example.COM").1
      (by decide)
  · have h2 := (is_already_sent_spec [] sampleHistory "A@B.com").2 (by decide)
    have he : pyLower "A@B.com" = "a@b.com" := by decide
    rw [he] at h2
    exact h2

/-- C5: evaluation of the code at the failing input. An account disabled by
disable_account_for_24h at time 0 is checked by is_account_disabled at time
90000, a full hour after its disabled_until of 86400 elapsed; the check still
reports it disabled with the manually-disabled reason and leaves enabled false
and disabled_until set, because the enabled test of line 128 precedes the
elapsed-disable branch of lines 143-162, which is therefore unreachable for
abuse-disabled accounts. The lazy re-enable that the claim and the log
messages of the code describe never happens. -/
theorem disabled_account_never_lazily_reenabled :
    (is_account_disabled 90000 (disable_account_for_24h 0 acctPlain)).disabled = true ∧
    (is_account_disabled 90000 (disable_account_for_24h 0 acctPlain)).reason
      = some "Account is manually disabled" ∧
    (is_account_disabled 90000 (disable_account_for_24h 0 acctPlain)).account.enabled
      = some false ∧
    (is_account_disabled 90000 (disable_account_for_24h 0 acctPlain)).account.disabled_until
      = some 86400 := by
  decide

/-- C7: every failure of the abuse monitor degrades to no signal. A mailbox
listing failure makes check_rate_limit_bounce return false with
failed_accounts untouched and no account disabled; a message whose fetch or
parse fails is skipped by the scan; and a monitor call that raises is swallowed
by the worker, which keeps sending. -/
theorem monitor_failure_no_signal (check_bounce_emails should_check : Bool)
    (account_id : String) (failed : List String) :
    check_rate_limit_bounce check_bounce_emails should_check account_id failed
        (Except.error ())
      = { detected := false, failed_accounts := failed, disabled_account := false } ∧
    (∀ rest : List (Except Unit BounceMsg),
      scan_bounce_msgs account_id failed (Except.error () :: rest)
        = scan_bounce_msgs account_id failed rest) ∧
    worker_bounce_check (Except.error ()) = WorkerBounceAction.continueSending := by
  refine ⟨?_, fun rest => rfl, rfl⟩
  cases check_bounce_emails <;> cases should_check <;> simp [check_rate_limit_bounce]

theorem lookupF_record (today ts email name title aid aem : String) (h : History) :
    lookupF (record_sent_email today ts email name title aid aem h).recipients
      (pyLower email) ≠ none := by
  unfold record_sent_email
  cases hr : lookupF h.recipients (pyLower email) with
  | some r => simp [hr, lookupF_setF_self]
  | none => simp [hr, lookupF_setF_self]

/-- C2 counterexample: starting from a store whose memory and file agree and
hold nothing, one record_sent_email call returns with the confirmed send
recorded in memory while the history file still holds the empty history - the
call did not flush, contradicting the claimed synchronous persistence. -/
theorem record_sent_email_not_flushed :
    lookupF (record_sent_email_step "2026-10-12" "T1" "A@B.com" "Ann" "P" "acct1"
        "acct1@g.com" freshStore).mem.recipients "a@b.com" ≠ none ∧
    (record_sent_email_step "2026-10-12" "T1" "A@B.com" "Ann" "P" "acct1"
        "acct1@g.com" freshStore).disk = emptyHistory := by
  constructor
  · decide
  · rfl

/-- C2 amended: record_sent_email only updates the in-memory history and leaves
the file as it was; the flush is the separate save_history call the worker
makes after send_email returns true, and only after that save does the file
hold the record of the send. -/
theorem record_then_save_flushes (today ts email name title aid aem : String) (s : Store) :
    (record_sent_email_step today ts email name title aid aem s).disk = s.disk ∧
    lookupF ((save_history (record_sent_email_step today ts email name title aid aem
        s)).disk).recipients (pyLower email) ≠ none := by
  refine ⟨rfl, ?_⟩
  simpa [save_history, record_sent_email_step] using
    lookupF_record today ts email name title aid aem s.mem

/-- C8 counterexample: the two account-fatal errors the code itself raises - the
rate limit message of line 563 and the credentials message of line 536 - make
the worker handler drop the recipient: requeued is false, the task is marked
done and the recipient is gone, while the claim says it is put back for another
account. -/
theorem account_fatal_recipient_dropped :
    (worker_error_handler "Rate limit reached for acct1: limit exceeded").requeued = false ∧
    (worker_error_handler "Credentials file not found for account acct1: missing").requeued
      = false := by
  decide

/-- C8 amended: on any error caught by the worker loop the account is marked
failed and the thread stops, but the held recipient is requeued only when the
lower-cased message contains none of "rate limit reached", "credentials",
"file"; for rate-limit and credentials or file errors the recipient is dropped. -/
theorem worker_error_requeue_spec (error_msg : String) :
    ((worker_error_handler error_msg).requeued = true ↔
      ¬(occursWithin "rate limit reached" (pyLower error_msg)
        ∨ occursWithin "credentials" (pyLower error_msg)
        ∨ occursWithin "file" (pyLower error_msg)))
    ∧ (worker_error_handler error_msg).account_failed = true
    ∧ (worker_error_handler error_msg).worker_stops = true := by
  cases hb : (strContains (pyLower error_msg) "rate limit reached"
      || strContains (pyLower error_msg) "credentials"
      || strContains (pyLower error_msg) "file") with
  | true =>
      have hP : occursWithin "rate limit reached" (pyLower error_msg)
          ∨ occursWithin "credentials" (pyLower error_msg)
          ∨ occursWithin "file" (pyLower error_msg) := by
        simp only [Bool.or_eq_true, strContains_iff] at hb
        tauto
      simp [worker_error_handler, hb, hP]
  | false =>
      have hP : ¬(occursWithin "rate limit reached" (pyLower error_msg)
          ∨ occursWithin "credentials" (pyLower error_msg)
          ∨ occursWithin "file" (pyLower error_msg)) := by
        intro hp
        have hx : (strContains (pyLower error_msg) "rate limit reached"
            || strContains (pyLower error_msg) "credentials"
            || strContains (pyLower error_msg) "file") = true := by
          simp only [Bool.or_eq_true, strContains_iff]
          tauto
        exact Bool.false_ne_true (hb.symm.trans hx)
      simp [worker_error_handler, hb, hP]

/-- C6 counterexample: the classifier of check_rate_limit_bounce falsifies the
three-set first-match-wins description twice over. A bounce text matching both
the rate-limit and the blocked indicators is reported as both at once - both
any-scans run, nothing short-circuits between the sets and no single distinct
kind results - and a genuine invalid-mailbox notice matches neither of the only
two phrase sets, so no INVALID_MAILBOX signal exists at all. -/
theorem abuse_classifier_two_sets_only :
    classify_message "Message blocked" "Daily sending quota exceeded" "" = (true, true) ∧
    bounce_detected "Address not found"
      "The email account that you tried to reach does not exist" "" = false := by
  constructor
  · decide
  · decide

/-- C6 amended: each candidate message is classified against the two phrase
sets of the code - rate-limit indicators and blocked or rejected indicators -
both evaluated over the lower-cased subject, snippet and body; a hit in either
set yields the single boolean bounce signal that disables the account. -/
theorem bounce_detection_spec (subject snippet body : String) :
    bounce_detected subject snippet body = true ↔
      ((∃ p ∈ rate_limit_phrases, occursWithin p (combined_lower subject snippet body))
        ∨ (∃ p ∈ blocked_phrases, occursWithin p (combined_lower subject snippet body))) := by
  simp [bounce_detected, classify_message, List.any_eq_true, strContains_iff]

/-- C4 counterexample: an enabled gmail_api account with disabled_until at time
3600, examined at time 0 when that timestamp still lies in the future, is
returned by get_available_account - not skipped - because the scan never reads
disabled_until; the scan written from the claim skips it. -/
theorem future_disabled_account_still_returned :
    acctFuture.disabled_until = some 3600 ∧ (0 : Int) < 3600 ∧
    get_available_account [] [] [acctFuture] = some (acctFuture, 0) ∧
    get_available_account_claim 0 [] [] [acctFuture] = none := by
  refine ⟨rfl, by decide, by decide, by decide⟩

/-- C4 amended: get_available_account scans the configured accounts in their
fixed list order and returns the first that is enabled, has auth_method
gmail_api, is not in failed_accounts, and whose count sent today is strictly
below its daily limit (default 2000), paired with that count; none when no
account qualifies. disabled_until plays no part in this scan. -/
theorem get_available_account_first_eligible (failed : List String)
    (stats : List (String × Nat)) (accounts : List Account) :
    get_available_account failed stats accounts
      = (accounts.find? (account_eligible failed stats)).map
          (fun a => (a, (lookupF stats a.id).getD 0)) := by
  induction accounts with
  | nil => rfl
  | cons a rest ih =>
      cases h1 : a.enabled.getD true with
      | false =>
          have he : ¬account_eligible failed stats a = true := by
            simp [account_eligible, h1]
          rw [List.find?_cons_of_neg rest he]
          simp only [get_available_account]
          rw [if_pos (by simp [h1])]
          exact ih
      | true =>
          by_cases h2 : a.auth_method = some "gmail_api"
          · by_cases h3 : a.id ∈ failed
            · have he : ¬account_eligible failed stats a = true := by
                simp [account_eligible, h3]
              rw [List.find?_cons_of_neg rest he]
              simp only [get_available_account]
              rw [if_neg (by simp [h1]), if_neg (by simp [h2]), if_pos h3]
              exact ih
            · have hc : failed.contains a.id = false := by
                cases hcc : failed.contains a.id with
                | false => rfl
                | true => exact absurd (List.mem_of_elem_eq_true hcc) h3
              by_cases h4 : (lookupF stats a.id).getD 0 < a.daily_limit.getD 2000
              · have he : account_eligible failed stats a = true := by
                  simp [account_eligible, h1, h2, h3, h4]
                rw [List.find?_cons_of_pos rest he]
                simp only [get_available_account]
                rw [if_neg (by simp [h1]), if_neg (by simp [h2]), if_neg h3]
                simp [h4]
              · have he : ¬account_eligible failed stats a = true := by
                  simp [account_eligible, hc, h4]
                rw [List.find?_cons_of_neg rest he]
                simp only [get_available_account]
                rw [if_neg (by simp [h1]), if_neg (by simp [h2]), if_neg h3, if_neg h4]
                exact ih
          · have he : ¬account_eligible failed stats a = true := by
              simp [account_eligible, h2]
            rw [List.find?_cons_of_neg rest he]
            simp only [get_available_account]
            rw [if_neg (by simp [h1]), if_pos (by simp [h2])]
            exact ih

theorem ledgerCount_bump_self (l : List (String × Nat)) (a : String) :
    ledgerCount (bumpLedger l a) a = ledgerCount l a + 1 := by
  unfold bumpLedger ledgerCount
  cases h : lookupF l a with
  | some n => simp [h, lookupF_setF_self]
  | none => simp [h, lookupF_setF_self]

theorem ledgerCount_bump_ne (l : List (String × Nat)) (a b : String) (hne : b ≠ a) :
    ledgerCount (bumpLedger l a) b = ledgerCount l b := by
  unfold bumpLedger ledgerCount
  cases h : lookupF l a with
  | some n => rw [lookupF_setF_ne l a b (n + 1) hne]
  | none => rw [lookupF_setF_ne l a b 1 hne]

theorem lookupF_bump_ne (l : List (String × Nat)) (a b : String) (hne : b ≠ a) :
    lookupF (bumpLedger l a) b = lookupF l b := by
  unfold bumpLedger
  cases h : lookupF l a with
  | some n => exact lookupF_setF_ne l a b (n + 1) hne
  | none => exact lookupF_setF_ne l a b 1 hne

theorem QInv_step (s : QSys) (aid : String) (h : QInv s) : QInv (stepQ s aid) := by
  cases hw : lookupF s.workers aid with
  | none =>
      have hstep : stepQ s aid = s := by
        unfold stepQ
        rw [hw]
      rw [hstep]
      exact h
  | some w =>
      obtain ⟨wl, wq⟩ := w
      cases wq with
      | atTop =>
          by_cases hle : wl ≤ (lookupF s.counters aid).getD 0
          · have hstep : stepQ s aid
                = { s with workers := setF s.workers aid { limit := wl, qph := QPhase.stopped } } := by
              unfold stepQ
              rw [hw]
              show (if wl ≤ (lookupF s.counters aid).getD 0 then
                  { s with workers := setF s.workers aid { limit := wl, qph := QPhase.stopped } }
                else
                  { s with workers := setF s.workers aid { limit := wl, qph := QPhase.sending } }) = _
              exact if_pos hle
            rw [hstep]
            intro b
            by_cases hb : b = aid
            · subst hb
              show (match lookupF (setF s.workers b { limit := wl, qph := QPhase.stopped }) b with
                | some w => (lookupF s.counters b).getD 0 ≤ w.limit
                    ∧ (w.qph = QPhase.sending → (lookupF s.counters b).getD 0 < w.limit)
                | none => True)
              rw [lookupF_setF_self]
              have hb2 := h b
              rw [hw] at hb2
              exact ⟨hb2.1, fun hc => QPhase.noConfusion hc⟩
            · show (match lookupF (setF s.workers aid { limit := wl, qph := QPhase.stopped }) b with
                | some w => (lookupF s.counters b).getD 0 ≤ w.limit
                    ∧ (w.qph = QPhase.sending → (lookupF s.counters b).getD 0 < w.limit)
                | none => True)
              rw [lookupF_setF_ne s.workers aid b _ hb]
              exact h b
          · have hstep : stepQ s aid
                = { s with workers := setF s.workers aid { limit := wl, qph := QPhase.sending } } := by
              unfold stepQ
              rw [hw]
              show (if wl ≤ (lookupF s.counters aid).getD 0 then
                  { s with workers := setF s.workers aid { limit := wl, qph := QPhase.stopped } }
                else
                  { s with workers := setF s.workers aid { limit := wl, qph := QPhase.sending } }) = _
              exact if_neg hle
            rw [hstep]
            intro b
            by_cases hb : b = aid
            · subst hb
              show (match lookupF (setF s.workers b { limit := wl, qph := QPhase.sending }) b with
                | some w => (lookupF s.counters b).getD 0 ≤ w.limit
                    ∧ (w.qph = QPhase.sending → (lookupF s.counters b).getD 0 < w.limit)
                | none => True)
              rw [lookupF_setF_self]
              exact ⟨Nat.le_of_lt (Nat.lt_of_not_le hle), fun _ => Nat.lt_of_not_le hle⟩
            · show (match lookupF (setF s.workers aid { limit := wl, qph := QPhase.sending }) b with
                | some w => (lookupF s.counters b).getD 0 ≤ w.limit
                    ∧ (w.qph = QPhase.sending → (lookupF s.counters b).getD 0 < w.limit)
                | none => True)
              rw [lookupF_setF_ne s.workers aid b _ hb]
              exact h b
      | sending =>
          have hstep : stepQ s aid
              = { s with counters := bumpLedger s.counters aid,
                         workers := setF s.workers aid { limit := wl, qph := QPhase.atTop } } := by
            unfold stepQ
            rw [hw]
          rw [hstep]
          intro b
          by_cases hb : b = aid
          · subst hb
            show (match lookupF (setF s.workers b { limit := wl, qph := QPhase.atTop }) b with
              | some w => (lookupF (bumpLedger s.counters b) b).getD 0 ≤ w.limit
                  ∧ (w.qph = QPhase.sending → (lookupF (bumpLedger s.counters b) b).getD 0 < w.limit)
              | none => True)
            rw [lookupF_setF_self]
            have hb2 := h b
            rw [hw] at hb2
            have hlt := hb2.2 rfl
            have hcount : (lookupF (bumpLedger s.counters b) b).getD 0
                = (lookupF s.counters b).getD 0 + 1 := ledgerCount_bump_self s.counters b
            rw [hcount]
            exact ⟨hlt, fun hc => QPhase.noConfusion hc⟩
          · show (match lookupF (setF s.workers aid { limit := wl, qph := QPhase.atTop }) b with
              | some w => (lookupF (bumpLedger s.counters aid) b).getD 0 ≤ w.limit
                  ∧ (w.qph = QPhase.sending → (lookupF (bumpLedger s.counters aid) b).getD 0 < w.limit)
              | none => True)
            rw [lookupF_setF_ne s.workers aid b _ hb]
            have hcb : lookupF (bumpLedger s.counters aid) b = lookupF s.counters b :=
              lookupF_bump_ne s.counters aid b hb
            simp only [hcb]
            exact h b
      | stopped =>
          have hstep : stepQ s aid = s := by
            unfold stepQ
            rw [hw]
          rw [hstep]
          exact h

theorem QInv_run (sch : List String) (s : QSys) (h : QInv s) : QInv (runQ s sch) := by
  induction sch generalizing s with
  | nil => exact h
  | cons aid rest ih => exact ih _ (QInv_step s aid h)

/-- C9: the quota invariant. One worker runs per account; at each loop top it
re-reads its own counter under the history lock and stops once the counter has
reached the daily limit, and each successful send bumps the counter by exactly
one inside the locked record. From any start in which every worker is at its
loop top with its counter at or below its limit, every interleaving of the
workers keeps, for every account, the count sent today at or below that
daily limit of that account, at every reachable state and hence after the run. -/
theorem quota_never_exceeded (sch : List String) (s0 : QSys)
    (h0 : ∀ aid w, lookupF s0.workers aid = some w →
      w.qph = QPhase.atTop ∧ (lookupF s0.counters aid).getD 0 ≤ w.limit) :
    ∀ aid w, lookupF (runQ s0 sch).workers aid = some w →
      (lookupF (runQ s0 sch).counters aid).getD 0 ≤ w.limit := by
  have hinv : QInv s0 := by
    intro aid
    cases hw : lookupF s0.workers aid with
    | none => trivial
    | some w =>
        obtain ⟨htop, hle⟩ := h0 aid w hw
        exact ⟨hle, fun hs => QPhase.noConfusion (htop.symm.trans hs)⟩
  have hfin := QInv_run sch s0 hinv
  intro aid w hw
  have hthis := hfin aid
  rw [hw] at hthis
  exact hthis.1

/-- C9 witness: one account with daily limit 2, scheduled for seven loop steps
starting from an empty counter table, finishes with a count of at most 2. -/
theorem quota_never_exceeded_witness :
    (lookupF (runQ quotaSys ["a1", "a1", "a1", "a1", "a1", "a1", "a1"]).counters "a1").getD 0
      ≤ 2 := by
  have hmain := quota_never_exceeded ["a1", "a1", "a1", "a1", "a1", "a1", "a1"] quotaSys
    (by
      intro aid w hw
      simp only [quotaSys, lookupF] at hw
      split at hw
      · cases hw
        exact ⟨rfl, by simp [quotaSys, lookupF]⟩
      · exact Option.noConfusion hw)
    "a1" { limit := 2, qph := QPhase.stopped } (by decide)
  exact hmain

theorem countVal_eq_zero (p : CWorker → Bool) :
    ∀ l : List (Nat × CWorker), (∀ kv ∈ l, p kv.2 = false) → countVal p l = 0 := by
  intro l
  induction l with
  | nil => intro _; rfl
  | cons kv tl ih =>
      intro hall
      have h1 : p kv.2 = false := hall kv (List.mem_cons_self kv tl)
      have h2 := ih (fun x hx => hall x (List.mem_cons_of_mem kv hx))
      simp [countVal, h1, h2]

theorem countVal_mono (p q : CWorker → Bool) (hpq : ∀ v, p v = true → q v = true) :
    ∀ l : List (Nat × CWorker), countVal p l ≤ countVal q l := by
  intro l
  induction l with
  | nil => exact Nat.le_refl 0
  | cons kv tl ih =>
      simp only [countVal]
      cases hp : p kv.2 with
      | true => rw [hpq kv.2 hp]; omega
      | false => cases hq : q kv.2 <;> simp <;> omega

theorem countVal_setF (p : CWorker → Bool) :
    ∀ (l : List (Nat × CWorker)) (k : Nat) (w w' : CWorker),
      lookupF l k = some w →
      countVal p (setF l k w') + (if p w then 1 else 0)
        = countVal p l + (if p w' then 1 else 0) := by
  intro l
  induction l with
  | nil => intro k w w' hl; simp [lookupF] at hl
  | cons hd tl ih =>
      intro k w w' hl
      obtain ⟨k0, v0⟩ := hd
      by_cases hk : k0 = k
      · simp only [lookupF, if_pos hk] at hl
        injection hl with hv
        subst hv
        simp only [setF, if_pos hk, countVal]
        omega
      · simp only [lookupF, if_neg hk] at hl
        simp only [setF, if_neg hk, countVal]
        have := ih k w w' hl
        omega

theorem lookupF_addr_mem :
    ∀ (l : List (Nat × CWorker)) (k : Nat) (w : CWorker),
      lookupF l k = some w → w.addr ∈ l.map (fun kv => kv.2.addr) := by
  intro l
  induction l with
  | nil => intro k w hl; simp [lookupF] at hl
  | cons hd tl ih =>
      intro k w hl
      obtain ⟨k0, v0⟩ := hd
      by_cases hk : k0 = k
      · simp only [lookupF, if_pos hk] at hl
        injection hl with hv
        rw [List.map_cons, hv]
        exact List.mem_cons_self _ _
      · simp only [lookupF, if_neg hk] at hl
        rw [List.map_cons]
        exact List.mem_cons_of_mem _ (ih k w hl)

theorem mapAddr_setF :
    ∀ (l : List (Nat × CWorker)) (k : Nat) (w w' : CWorker),
      lookupF l k = some w → w'.addr = w.addr →
      (setF l k w').map (fun kv => kv.2.addr) = l.map (fun kv => kv.2.addr) := by
  intro l
  induction l with
  | nil => intro k w w' hl _; simp [lookupF] at hl
  | cons hd tl ih =>
      intro k w w' hl ha
      obtain ⟨k0, v0⟩ := hd
      by_cases hk : k0 = k
      · simp only [lookupF, if_pos hk] at hl
        injection hl with hv
        simp [setF, if_pos hk, List.map_cons, ha, hv]
      · simp only [lookupF, if_neg hk] at hl
        simp [setF, if_neg hk, List.map_cons, ih k w w' hl ha]

theorem countVal_zero_unique (a : String) (p : CWorker → Bool)
    (hp : ∀ v, p v = true → v.addr = a) :
    ∀ (l : List (Nat × CWorker)) (k : Nat) (w : CWorker),
      lookupF l k = some w → w.addr = a → p w = false →
      (l.map (fun kv => kv.2.addr)).Nodup → countVal p l = 0 := by
  intro l
  induction l with
  | nil => intro k w _ _ _ _; rfl
  | cons hd tl ih =>
      intro k w hl hwa hpw hnd
      obtain ⟨k0, v0⟩ := hd
      rw [List.map_cons, List.nodup_cons] at hnd
      obtain ⟨hnotin, hndtl⟩ := hnd
      by_cases hk : k0 = k
      · simp only [lookupF, if_pos hk] at hl
        injection hl with hv
        subst hv
        have htl : countVal p tl = 0 := by
          apply countVal_eq_zero
          intro kv hkv
          cases hpv : p kv.2 with
          | false => rfl
          | true =>
              have h1 : kv.2.addr = a := hp _ hpv
              have h2 : kv.2.addr ∈ tl.map (fun kv => kv.2.addr) :=
                List.mem_map_of_mem _ hkv
              rw [h1, ← hwa] at h2
              exact absurd h2 hnotin
        simp [countVal, htl, hpw]
      · simp only [lookupF, if_neg hk] at hl
        have hv0 : p v0 = false := by
          cases hpv : p v0 with
          | false => rfl
          | true =>
              have h1 : v0.addr = a := hp _ hpv
              have h2 : w.addr ∈ tl.map (fun kv => kv.2.addr) := lookupF_addr_mem tl k w hl
              rw [hwa, ← h1] at h2
              exact absurd h2 hnotin
        have htl := ih k w hl hwa hpw hndtl
        simp [countVal, htl, hv0]

theorem countOcc_snoc (b x : String) (S : List String) :
    countOcc b (S ++ [x]) = countOcc b S + (if x = b then 1 else 0) := by
  by_cases hx : x = b
  · simp [countOcc, List.countP_append, List.countP_cons, hx]
  · simp [countOcc, List.countP_append, List.countP_cons, hx]

theorem sentPred_ready (b x : String) :
    sentPred b { addr := x, phase := Phase.ready } = false := by
  simp [sentPred]

theorem sentPred_passed (b x : String) :
    sentPred b { addr := x, phase := Phase.passedCheck } = false := by
  simp [sentPred]

theorem sentPred_done (b x : String) :
    sentPred b { addr := x, phase := Phase.done } = false := by
  simp [sentPred]

theorem sentPred_sent (b x : String) :
    sentPred b { addr := x, phase := Phase.sent } = decide (x = b) := by
  simp [sentPred]

theorem inFlightPred_ready (b x : String) :
    inFlightPred b { addr := x, phase := Phase.ready } = false := by
  simp [inFlightPred]

theorem inFlightPred_done (b x : String) :
    inFlightPred b { addr := x, phase := Phase.done } = false := by
  simp [inFlightPred]

theorem inFlightPred_passed (b x : String) :
    inFlightPred b { addr := x, phase := Phase.passedCheck } = decide (x = b) := by
  simp [inFlightPred]

theorem inFlightPred_sent (b x : String) :
    inFlightPred b { addr := x, phase := Phase.sent } = decide (x = b) := by
  simp [inFlightPred]

theorem CInv_step (s : CSys) (i : Nat) (h : CInv s) : CInv (stepW s i) := by
  obtain ⟨hnd, hinv⟩ := h
  cases hw : lookupF s.workers i with
  | none =>
      have hstep : stepW s i = s := by
        unfold stepW
        rw [hw]
      rw [hstep]
      exact ⟨hnd, hinv⟩
  | some w =>
      obtain ⟨waddr, wph⟩ := w
      cases wph with
      | ready =>
          by_cases hk : hasKey s.ledger waddr = true
          · have hstep : stepW s i
                = { s with workers := setF s.workers i ⟨waddr, Phase.done⟩ } := by
              unfold stepW
              rw [hw]
              show (if hasKey s.ledger waddr = true
                  then { s with workers := setF s.workers i ⟨waddr, Phase.done⟩ }
                  else { s with workers := setF s.workers i ⟨waddr, Phase.passedCheck⟩ }) = _
              exact if_pos hk
            rw [hstep]
            refine ⟨?_, ?_⟩
            · show ((setF s.workers i ⟨waddr, Phase.done⟩).map (fun kv => kv.2.addr)).Nodup
              rw [mapAddr_setF s.workers i ⟨waddr, Phase.ready⟩ ⟨waddr, Phase.done⟩ hw rfl]
              exact hnd
            · intro b
              obtain ⟨e1, e2⟩ := hinv b
              have hs := countVal_setF (sentPred b) s.workers i
                ⟨waddr, Phase.ready⟩ ⟨waddr, Phase.done⟩ hw
              have hf := countVal_setF (inFlightPred b) s.workers i
                ⟨waddr, Phase.ready⟩ ⟨waddr, Phase.done⟩ hw
              rw [sentPred_ready, sentPred_done] at hs
              rw [inFlightPred_ready, inFlightPred_done] at hf
              simp at hs hf
              show countOcc b s.sends
                  = ledgerCount s.ledger b
                    + countVal (sentPred b) (setF s.workers i ⟨waddr, Phase.done⟩)
                ∧ ledgerCount s.ledger b
                    + countVal (inFlightPred b) (setF s.workers i ⟨waddr, Phase.done⟩) ≤ 1
              omega
          · have hstep : stepW s i
                = { s with workers := setF s.workers i ⟨waddr, Phase.passedCheck⟩ } := by
              unfold stepW
              rw [hw]
              show (if hasKey s.ledger waddr = true
                  then { s with workers := setF s.workers i ⟨waddr, Phase.done⟩ }
                  else { s with workers := setF s.workers i ⟨waddr, Phase.passedCheck⟩ }) = _
              exact if_neg hk
            rw [hstep]
            have hl0 : ledgerCount s.ledger waddr = 0 := by
              unfold ledgerCount
              cases hll : lookupF s.ledger waddr with
              | none => rfl
              | some n => exact absurd (by simp [hasKey, hll]) hk
            refine ⟨?_, ?_⟩
            · show ((setF s.workers i ⟨waddr, Phase.passedCheck⟩).map
                  (fun kv => kv.2.addr)).Nodup
              rw [mapAddr_setF s.workers i ⟨waddr, Phase.ready⟩ ⟨waddr, Phase.passedCheck⟩ hw rfl]
              exact hnd
            · intro b
              obtain ⟨e1, e2⟩ := hinv b
              have hs := countVal_setF (sentPred b) s.workers i
                ⟨waddr, Phase.ready⟩ ⟨waddr, Phase.passedCheck⟩ hw
              have hf := countVal_setF (inFlightPred b) s.workers i
                ⟨waddr, Phase.ready⟩ ⟨waddr, Phase.passedCheck⟩ hw
              rw [sentPred_ready, sentPred_passed] at hs
              rw [inFlightPred_ready, inFlightPred_passed] at hf
              simp at hs
              show countOcc b s.sends
                  = ledgerCount s.ledger b
                    + countVal (sentPred b) (setF s.workers i ⟨waddr, Phase.passedCheck⟩)
                ∧ ledgerCount s.ledger b
                    + countVal (inFlightPred b) (setF s.workers i ⟨waddr, Phase.passedCheck⟩) ≤ 1
              by_cases hb : waddr = b
              · subst hb
                simp at hf
                have hzero : countVal (inFlightPred waddr) s.workers = 0 :=
                  countVal_zero_unique waddr (inFlightPred waddr)
                    (fun v hv => by
                      simp [inFlightPred] at hv
                      exact hv.1)
                    s.workers i ⟨waddr, Phase.ready⟩ hw rfl
                    (inFlightPred_ready waddr waddr) hnd
                omega
              · have hd : decide (waddr = b) = false := by simp [hb]
                rw [hd] at hf
                simp at hf
                omega
      | passedCheck =>
          have hstep : stepW s i
              = { s with sends := s.sends ++ [waddr],
                         workers := setF s.workers i ⟨waddr, Phase.sent⟩ } := by
            unfold stepW
            rw [hw]
          rw [hstep]
          refine ⟨?_, ?_⟩
          · show ((setF s.workers i ⟨waddr, Phase.sent⟩).map (fun kv => kv.2.addr)).Nodup
            rw [mapAddr_setF s.workers i ⟨waddr, Phase.passedCheck⟩ ⟨waddr, Phase.sent⟩ hw rfl]
            exact hnd
          · intro b
            obtain ⟨e1, e2⟩ := hinv b
            have hs := countVal_setF (sentPred b) s.workers i
              ⟨waddr, Phase.passedCheck⟩ ⟨waddr, Phase.sent⟩ hw
            have hf := countVal_setF (inFlightPred b) s.workers i
              ⟨waddr, Phase.passedCheck⟩ ⟨waddr, Phase.sent⟩ hw
            rw [sentPred_passed, sentPred_sent] at hs
            rw [inFlightPred_passed, inFlightPred_sent] at hf
            have hsn := countOcc_snoc b waddr s.sends
            show countOcc b (s.sends ++ [waddr])
                = ledgerCount s.ledger b
                  + countVal (sentPred b) (setF s.workers i ⟨waddr, Phase.sent⟩)
              ∧ ledgerCount s.ledger b
                  + countVal (inFlightPred b) (setF s.workers i ⟨waddr, Phase.sent⟩) ≤ 1
            by_cases hb : waddr = b
            · subst hb
              simp at hs hf hsn
              omega
            · have hd : decide (waddr = b) = false := by simp [hb]
              rw [hd] at hs hf
              simp [hb] at hsn
              simp at hs hf
              omega
      | sent =>
          have hstep : stepW s i
              = { s with ledger := bumpLedger s.ledger waddr,
                         workers := setF s.workers i ⟨waddr, Phase.done⟩ } := by
            unfold stepW
            rw [hw]
          rw [hstep]
          refine ⟨?_, ?_⟩
          · show ((setF s.workers i ⟨waddr, Phase.done⟩).map (fun kv => kv.2.addr)).Nodup
            rw [mapAddr_setF s.workers i ⟨waddr, Phase.sent⟩ ⟨waddr, Phase.done⟩ hw rfl]
            exact hnd
          · intro b
            obtain ⟨e1, e2⟩ := hinv b
            have hs := countVal_setF (sentPred b) s.workers i
              ⟨waddr, Phase.sent⟩ ⟨waddr, Phase.done⟩ hw
            have hf := countVal_setF (inFlightPred b) s.workers i
              ⟨waddr, Phase.sent⟩ ⟨waddr, Phase.done⟩ hw
            rw [sentPred_sent, sentPred_done] at hs
            rw [inFlightPred_sent, inFlightPred_done] at hf
            show countOcc b s.sends
                = ledgerCount (bumpLedger s.ledger waddr) b
                  + countVal (sentPred b) (setF s.workers i ⟨waddr, Phase.done⟩)
              ∧ ledgerCount (bumpLedger s.ledger waddr) b
                  + countVal (inFlightPred b) (setF s.workers i ⟨waddr, Phase.done⟩) ≤ 1
            by_cases hb : waddr = b
            · subst hb
              have hbump := ledgerCount_bump_self s.ledger waddr
              simp at hs hf
              omega
            · have hbump := ledgerCount_bump_ne s.ledger waddr b (fun hh => hb hh.symm)
              have hd : decide (waddr = b) = false := by simp [hb]
              rw [hd] at hs hf
              simp at hs hf
              omega
      | done =>
          have hstep : stepW s i = s := by
            unfold stepW
            rw [hw]
          rw [hstep]
          exact ⟨hnd, hinv⟩

theorem CInv_run (sch : List Nat) (s : CSys) (h : CInv s) : CInv (runW s sch) := by
  induction sch generalizing s with
  | nil => exact h
  | cons i rest ih => exact ih _ (CInv_step s i h)

/-- C1 counterexample: two workers hold duplicate copies of one recipient. After
the schedule worker 0 then worker 1, both have passed the locked double check
for the same address - worker 1 passed it between the check of worker 0 and its
record, which a single spanning critical section would forbid. Completing the
interleaving performs two Transport.Send calls to the recipient and leaves its
ledger entry with send_count 2: a double send under the lock structure of the
code, where the check of lines 884-891 and the record of lines 649-678 take the
history lock separately and the lock is free during the send between them. -/
theorem duplicated_recipient_double_sent :
    lookupF (runW raceSys [0, 1]).workers 0
        = some { addr := "a@x.com", phase := Phase.passedCheck } ∧
    lookupF (runW raceSys [0, 1]).workers 1
        = some { addr := "a@x.com", phase := Phase.passedCheck } ∧
    (runW raceSys [0, 1, 0, 1, 0, 1]).sends = ["a@x.com", "a@x.com"] ∧
    lookupF (runW raceSys [0, 1, 0, 1, 0, 1]).ledger "a@x.com" = some 2 := by
  decide

/-- C1 amended: the double check and the record each hold the history lock on
their own, but the lock is released between them and Transport.Send runs
outside it, so the claimed single critical section spanning check, send and
record does not exist, and duplicate copies of one recipient held by two
workers can be double-sent. When every recipient address is held by at most one
worker - as when the coordinator enqueues each distinct recipient once - every
interleaving performs at most one Transport.Send per address, and the recorded
send_count for an address never exceeds the number of transport sends to it. -/
theorem no_double_send_with_distinct_recipients (sch : List Nat)
    (ws : List (Nat × CWorker)) (a : String)
    (hnd : (ws.map (fun kv => kv.2.addr)).Nodup)
    (hready : ∀ kv ∈ ws, kv.2.phase = Phase.ready) :
    countOcc a (runW { ledger := [], sends := [], workers := ws } sch).sends ≤ 1 ∧
    ledgerCount (runW { ledger := [], sends := [], workers := ws } sch).ledger a
      ≤ countOcc a (runW { ledger := [], sends := [], workers := ws } sch).sends := by
  have h0 : CInv { ledger := [], sends := [], workers := ws } := by
    refine ⟨hnd, fun b => ⟨?_, ?_⟩⟩
    · have hz : countVal (sentPred b) ws = 0 :=
        countVal_eq_zero _ ws (fun kv hkv => by
          have := hready kv hkv
          simp [sentPred, this])
      simp [countOcc, ledgerCount, lookupF, hz]
    · have hz : countVal (inFlightPred b) ws = 0 :=
        countVal_eq_zero _ ws (fun kv hkv => by
          have := hready kv hkv
          simp [inFlightPred, this])
      simp [ledgerCount, lookupF, hz]
  have hfin := CInv_run sch { ledger := [], sends := [], workers := ws } h0
  obtain ⟨_, hb⟩ := hfin
  obtain ⟨e1, e2⟩ := hb a
  have hm : countVal (sentPred a) (runW { ledger := [], sends := [], workers := ws } sch).workers
      ≤ countVal (inFlightPred a)
        (runW { ledger := [], sends := [], workers := ws } sch).workers :=
    countVal_mono _ _
      (fun v hv => by
        simp [sentPred] at hv
        simp [inFlightPred, hv.1, hv.2]) _
  constructor
  · omega
  · omega

/-- C1 amended witness: two workers on distinct addresses, run through a full
interleaved schedule, send to the first address at most once and record no more
than they send. -/
theorem no_double_send_witness :
    countOcc "a@x.com"
        (runW { ledger := [], sends := [], workers := pairWorkers } [0, 1, 0, 1, 0, 1]).sends ≤ 1
    ∧ ledgerCount
        (runW { ledger := [], sends := [], workers := pairWorkers } [0, 1, 0, 1, 0, 1]).ledger
        "a@x.com"
      ≤ countOcc "a@x.com"
          (runW { ledger := [], sends := [], workers := pairWorkers } [0, 1, 0, 1, 0, 1]).sends :=
  no_double_send_with_distinct_recipients [0, 1, 0, 1, 0, 1] pairWorkers "a@x.com"
    (by decide) (by decide)
